import Mathlib

/-!
Verification of the `spelling` crate (`src/lib.rs`).

Strings are modelled as `List Char` (Rust iterates `str::chars()`, i.e. Unicode
scalar values).  The two distance kernels and the sequential aggregator are
translated function-by-function; `usize` arithmetic that cannot overflow is
modelled on `Nat`, the `isize` quantities (`k`, `offset`, `char_index`) of the
banded kernel on `Int`.  A Rust panic (`unwrap` on `None`) is modelled by the
outer `none` of an `Option` result.
-/

namespace Spelling

/-! ### Reference definition: recursive Levenshtein distance

This is the recursion stated in the comment block of `levenshtein_distance`
in `src/lib.rs` (lines 56-64).  It is used as the mathematical yardstick; the
imperative row computation is proved equal to it below. -/

/-- Recursive Levenshtein distance, exactly the recursion documented in the
source comment: base cases are the lengths, a matching head costs nothing,
otherwise one plus the minimum of substitution, deletion and insertion. -/
def levD : List Char → List Char → Nat
  | [], b => b.length
  | a, [] => a.length
  | x :: a, y :: b =>
    if x = y then levD a b
    else 1 + min (levD a b) (min (levD a (y :: b)) (levD (x :: a) b))
termination_by a b => a.length + b.length

@[simp] theorem levD_nil_left (b : List Char) : levD [] b = b.length := by
  rw [levD.eq_def]; cases b <;> rfl

@[simp] theorem levD_nil_right (a : List Char) : levD a [] = a.length := by
  rw [levD.eq_def]; cases a <;> rfl

theorem levD_cons_cons (x y : Char) (a b : List Char) :
    levD (x :: a) (y :: b) =
      if x = y then levD a b
      else 1 + min (levD a b) (min (levD a (y :: b)) (levD (x :: a) b)) := by
  rw [levD]

/-! ### Edit scripts

An edit script transforms the first string into the second using
single-character copies (free), substitutions, deletions and insertions.
`Edits n a b` holds when some script of exactly `n` paid operations
transforms `a` into `b`. -/

/-- Proposition: `n` single-character edits (substitution, deletion,
insertion; copying a matching character is free) transform `a` into `b`. -/
inductive Edits : Nat → List Char → List Char → Prop
  | nil : Edits 0 [] []
  | copy {n a b} (c : Char) : Edits n a b → Edits n (c :: a) (c :: b)
  | subst {n a b} (c d : Char) : Edits n a b → Edits (n + 1) (c :: a) (d :: b)
  | delete {n a b} (c : Char) : Edits n a b → Edits (n + 1) (c :: a) b
  | insert {n a b} (d : Char) : Edits n a b → Edits (n + 1) a (d :: b)

theorem edits_nil_left : ∀ b : List Char, Edits b.length [] b
  | [] => .nil
  | d :: b => .insert d (edits_nil_left b)

theorem edits_nil_right : ∀ a : List Char, Edits a.length a []
  | [] => .nil
  | c :: a => .delete c (edits_nil_right a)

/-- Adjacent rows and columns of the distance table differ by at most one:
all four one-character monotonicity bounds, proved by one strong induction
on the combined length. -/
theorem levD_step :
    ∀ n, ∀ a b : List Char, a.length + b.length ≤ n →
      ((∀ c, levD (c :: a) b ≤ levD a b + 1) ∧
       (∀ c, levD a b ≤ levD (c :: a) b + 1) ∧
       (∀ d, levD a (d :: b) ≤ levD a b + 1) ∧
       (∀ d, levD a b ≤ levD a (d :: b) + 1)) := by
  intro n
  induction n with
  | zero =>
    intro a b h
    have ha : a = [] := by cases a <;> simp_all
    have hb : b = [] := by cases b <;> simp_all
    subst ha; subst hb
    refine ⟨fun c => ?_, fun c => ?_, fun d => ?_, fun d => ?_⟩ <;>
      simp only [levD_nil_left, levD_nil_right, List.length_cons,
        List.length_nil] <;> omega
  | succ n ih =>
    intro a b h
    refine ⟨fun c => ?_, fun c => ?_, fun d => ?_, fun d => ?_⟩
    · -- levD (c :: a) b ≤ levD a b + 1
      cases b with
      | nil =>
        simp only [levD_nil_right, List.length_cons]; omega
      | cons y b' =>
        rw [levD_cons_cons]
        by_cases hcy : c = y
        · rw [if_pos hcy]
          have := (ih a b' (by simp at h ⊢; omega)).2.2.2 y
          omega
        · rw [if_neg hcy]
          omega
    · -- levD a b ≤ levD (c :: a) b + 1
      cases b with
      | nil =>
        simp only [levD_nil_right, List.length_cons]; omega
      | cons y b' =>
        rw [levD_cons_cons]
        have h1 := (ih a b' (by simp at h ⊢; omega)).2.2.1 y
        have h2 := (ih a b' (by simp at h ⊢; omega)).2.1 c
        by_cases hcy : c = y
        · rw [if_pos hcy]
          omega
        · rw [if_neg hcy]
          omega
    · -- levD a (d :: b) ≤ levD a b + 1
      cases a with
      | nil =>
        simp only [levD_nil_left, List.length_cons]; omega
      | cons x a' =>
        rw [levD_cons_cons]
        by_cases hxd : x = d
        · rw [if_pos hxd]
          have := (ih a' b (by simp at h ⊢; omega)).2.1 x
          omega
        · rw [if_neg hxd]
          omega
    · -- levD a b ≤ levD a (d :: b) + 1
      cases a with
      | nil =>
        simp only [levD_nil_left, List.length_cons]; omega
      | cons x a' =>
        rw [levD_cons_cons]
        have h1 := (ih a' b (by simp at h ⊢; omega)).1 x
        have h2 := (ih a' b (by simp at h ⊢; omega)).2.2.2 d
        by_cases hxd : x = d
        · rw [if_pos hxd]
          omega
        · rw [if_neg hxd]
          omega

theorem levD_cons_left_le (c : Char) (a b : List Char) :
    levD (c :: a) b ≤ levD a b + 1 :=
  (levD_step (a.length + b.length) a b le_rfl).1 c

theorem levD_cons_right_le (d : Char) (a b : List Char) :
    levD a (d :: b) ≤ levD a b + 1 :=
  (levD_step (a.length + b.length) a b le_rfl).2.2.1 d

/-- Achievability: some edit script of cost `levD a b` transforms `a` into
`b`. -/
theorem edits_levD : ∀ a b : List Char, Edits (levD a b) a b
  | [], b => by simpa using edits_nil_left b
  | c :: a, [] => by simpa using edits_nil_right (c :: a)
  | x :: a, y :: b => by
    rw [levD_cons_cons]
    by_cases hxy : x = y
    · subst hxy
      simpa [if_pos rfl] using Edits.copy x (edits_levD a b)
    · simp only [if_neg hxy]
      have h1 := edits_levD a b
      have h2 := edits_levD a (y :: b)
      have h3 := edits_levD (x :: a) b
      rcases show
          min (levD a b) (min (levD a (y :: b)) (levD (x :: a) b)) = levD a b ∨
          min (levD a b) (min (levD a (y :: b)) (levD (x :: a) b)) = levD a (y :: b) ∨
          min (levD a b) (min (levD a (y :: b)) (levD (x :: a) b)) = levD (x :: a) b
        from by omega with hm | hm | hm
      · rw [hm, Nat.add_comm]
        exact Edits.subst x y h1
      · rw [hm, Nat.add_comm]
        exact Edits.delete x h2
      · rw [hm, Nat.add_comm]
        exact Edits.insert y h3
termination_by a b => a.length + b.length

/-- Optimality: every edit script transforming `a` into `b` costs at least
`levD a b`. -/
theorem levD_le_of_edits {n : Nat} {a b : List Char} (h : Edits n a b) :
    levD a b ≤ n := by
  induction h with
  | nil => simp
  | copy c _ ih => rw [levD_cons_cons, if_pos rfl]; exact ih
  | subst c d _ ih =>
    rw [levD_cons_cons]
    by_cases hcd : c = d
    · rw [if_pos hcd]; omega
    · rw [if_neg hcd]; omega
  | @delete m a' b' c _ ih =>
    have := levD_cons_left_le c a' b'
    omega
  | @insert m a' b' d _ ih =>
    have := levD_cons_right_le d a' b'
    omega

/-- Characterisation: `levD a b` is the least cost of an edit script from
`a` to `b`. -/
theorem levD_isLeast (a b : List Char) :
    IsLeast { n | Edits n a b } (levD a b) :=
  ⟨edits_levD a b, fun _ hn => levD_le_of_edits hn⟩

/-! ### Symmetry and reversal of edit scripts -/

theorem Edits.symm {n : Nat} {a b : List Char} (h : Edits n a b) :
    Edits n b a := by
  induction h with
  | nil => exact .nil
  | copy c _ ih => exact .copy c ih
  | subst c d _ ih => exact .subst d c ih
  | delete c _ ih => exact .insert c ih
  | insert d _ ih => exact .delete d ih

theorem levD_comm (a b : List Char) : levD a b = levD b a :=
  Nat.le_antisymm (levD_le_of_edits (edits_levD b a).symm)
    (levD_le_of_edits (edits_levD a b).symm)

theorem Edits.snoc_copy {n : Nat} {a b : List Char} (c : Char)
    (h : Edits n a b) : Edits n (a ++ [c]) (b ++ [c]) := by
  induction h with
  | nil => exact .copy c .nil
  | copy e _ ih => exact .copy e ih
  | subst e f _ ih => exact .subst e f ih
  | delete e _ ih => exact .delete e ih
  | insert f _ ih => exact .insert f ih

theorem Edits.snoc_subst {n : Nat} {a b : List Char} (c d : Char)
    (h : Edits n a b) : Edits (n + 1) (a ++ [c]) (b ++ [d]) := by
  induction h with
  | nil => exact .subst c d .nil
  | copy e _ ih => exact .copy e ih
  | subst e f _ ih => exact .subst e f ih
  | delete e _ ih => exact .delete e ih
  | insert f _ ih => exact .insert f ih

theorem Edits.snoc_delete {n : Nat} {a b : List Char} (c : Char)
    (h : Edits n a b) : Edits (n + 1) (a ++ [c]) b := by
  induction h with
  | nil => exact .delete c .nil
  | copy e _ ih => exact .copy e ih
  | subst e f _ ih => exact .subst e f ih
  | delete e _ ih => exact .delete e ih
  | insert f _ ih => exact .insert f ih

theorem Edits.snoc_insert {n : Nat} {a b : List Char} (d : Char)
    (h : Edits n a b) : Edits (n + 1) a (b ++ [d]) := by
  induction h with
  | nil => exact .insert d .nil
  | copy e _ ih => exact .copy e ih
  | subst e f _ ih => exact .subst e f ih
  | delete e _ ih => exact .delete e ih
  | insert f _ ih => exact .insert f ih

theorem Edits.reverse {n : Nat} {a b : List Char} (h : Edits n a b) :
    Edits n a.reverse b.reverse := by
  induction h with
  | nil => exact .nil
  | copy c _ ih => simpa using ih.snoc_copy c
  | subst c d _ ih => simpa using ih.snoc_subst c d
  | delete c _ ih => simpa using ih.snoc_delete c
  | insert d _ ih => simpa using ih.snoc_insert d

theorem levD_reverse (a b : List Char) :
    levD a.reverse b.reverse = levD a b := by
  refine Nat.le_antisymm (levD_le_of_edits (edits_levD a b).reverse) ?_
  have := levD_le_of_edits (edits_levD a.reverse b.reverse).reverse
  simpa using this

/-! ### The full kernel `levenshtein_distance` (src/lib.rs lines 52-116)

The Rust function keeps a single DP row `vector` of length `|a| + 1`
(after swapping so that `a` is the shorter string), initialised to
`0 ..= |a|`, and for the `i`-th character of `b` rewrites the row in place,
tracking the overwritten up-left diagonal value in `up_left`.  The in-place
rewrite is modelled by `levInnerLoop`, which walks the remaining characters
of `a` together with the remaining old row entries; `upLeft` is the old
value of `vector[j-1]`, `left` the new value of `vector[j-1]`. -/

/-- Inner loop of `levenshtein_distance` (lines 94-111): one in-place row
update for the character `bChar`. -/
def levInnerLoop (bChar : Char) : List Char → Nat → Nat → List Nat → List Nat
  | [], _, _, _ => []
  | _ :: _, _, _, [] => []
  | aChar :: aRest, upLeft, left, u :: oldRest =>
    let cell := if aChar = bChar then upLeft
                else min (u + 1) (min (left + 1) (upLeft + 1))
    cell :: levInnerLoop bChar aRest u cell oldRest

/-- Outer loop of `levenshtein_distance` (lines 90-113): fold over the
characters of `b`, rewriting the row; `vector[0]` becomes `i + 1` and the
old `vector[0]` seeds `up_left`. -/
def levOuterLoop (a : List Char) : List Char → Nat → List Nat → List Nat
  | [], _, row => row
  | bChar :: bRest, i, row =>
    let newRow :=
      match row with
      | [] => []
      | r0 :: rest => (i + 1) :: levInnerLoop bChar a r0 (i + 1) rest
    levOuterLoop a bRest (i + 1) newRow

/-- Row computation of `levenshtein_distance` after the swap: initial row
`0 ..= |a|`, then the outer loop over `b`; the answer is `vector[|a|]`
(line 115).  The row provably always has length `|a| + 1`, so the `getD`
default is never used. -/
def levCore (a b : List Char) : Nat :=
  let vector := List.range (a.length + 1)
  (levOuterLoop a b 0 vector).getD a.length 0

/-- Model of `pub fn levenshtein_distance` (lines 52-116): swap so the
shorter string is `a` (lines 76-80), then run the single-row DP. -/
def levenshtein_distance (a b : List Char) : Nat :=
  if a.length > b.length then levCore b a else levCore a b

/-! ### Correctness of the row computation

The loop invariant: after processing (in reverse) the `b`-suffix `v`, the
row entry for the `a`-position whose processed characters are `x :: p`
(stored in reverse) is `levD (x :: p) v`.  `rowSpec p as v` is the row tail
for remaining characters `as`. -/

/-- Specification of the row tail: entry `j` of the row holds the distance
between the reversed processed `a`-part and the reversed processed
`b`-part. -/
def rowSpec (p : List Char) : List Char → List Char → List Nat
  | [], _ => []
  | x :: asRest, v => levD (x :: p) v :: rowSpec (x :: p) asRest v

theorem rowSpec_nil (p : List Char) :
    ∀ as : List Char, rowSpec p as [] = List.range' (p.length + 1) as.length := by
  intro as
  induction as generalizing p with
  | nil => rfl
  | cons x asRest ih =>
    simp only [rowSpec, levD_nil_right, List.length_cons, List.range'_succ]
    exact congrArg _ (ih (x :: p))

theorem levInnerLoop_spec (bc : Char) :
    ∀ (as p v : List Char),
      levInnerLoop bc as (levD p v) (levD p (bc :: v)) (rowSpec p as v)
        = rowSpec p as (bc :: v) := by
  intro as
  induction as with
  | nil => intro p v; rfl
  | cons x asRest ih =>
    intro p v
    simp only [rowSpec, levInnerLoop]
    have hcell :
        (if x = bc then levD p v
         else min (levD (x :: p) v + 1)
           (min (levD p (bc :: v) + 1) (levD p v + 1)))
          = levD (x :: p) (bc :: v) := by
      rw [levD_cons_cons]
      by_cases hx : x = bc
      · rw [if_pos hx, if_pos hx]
      · rw [if_neg hx, if_neg hx]; omega
    rw [hcell]
    exact congrArg _ (ih (x :: p) v)

theorem levOuterLoop_spec (a : List Char) :
    ∀ (bs v : List Char),
      levOuterLoop a bs v.length (levD [] v :: rowSpec [] a v)
        = levD [] (bs.reverse ++ v) :: rowSpec [] a (bs.reverse ++ v) := by
  intro bs
  induction bs with
  | nil => intro v; simp [levOuterLoop]
  | cons bc bsRest ih =>
    intro v
    show levOuterLoop a bsRest (v.length + 1)
        ((v.length + 1) :: levInnerLoop bc a (levD [] v) (v.length + 1)
          (rowSpec [] a v))
      = _
    have h1 : v.length + 1 = levD [] (bc :: v) := by simp
    rw [show ((v.length + 1) :: levInnerLoop bc a (levD [] v) (v.length + 1)
          (rowSpec [] a v))
        = (levD [] (bc :: v) :: levInnerLoop bc a (levD [] v)
            (levD [] (bc :: v)) (rowSpec [] a v)) by rw [← h1],
      levInnerLoop_spec bc a [] v]
    have := ih (bc :: v)
    simp only [List.length_cons] at this
    rw [this]
    simp

theorem rowSpec_getD (v : List Char) :
    ∀ (as p : List Char),
      (levD p v :: rowSpec p as v).getD as.length 0 = levD (as.reverse ++ p) v := by
  intro as
  induction as with
  | nil => intro p; rfl
  | cons x asRest ih =>
    intro p
    simp only [rowSpec, List.length_cons, List.getD_cons_succ]
    rw [ih (x :: p)]
    simp

theorem levCore_eq_levD (a b : List Char) : levCore a b = levD a b := by
  have hinit : List.range (a.length + 1) = levD [] [] :: rowSpec [] a [] := by
    rw [List.range_eq_range', List.range'_succ, rowSpec_nil]
    simp
  have houter := levOuterLoop_spec a b []
  simp only [List.length_nil, List.append_nil] at houter
  show (levOuterLoop a b 0 (List.range (a.length + 1))).getD a.length 0 = levD a b
  rw [hinit, houter, rowSpec_getD, List.append_nil, levD_reverse]

/-- The row DP with the initial swap computes exactly the documented
recursive Levenshtein distance. -/
theorem levenshtein_distance_eq_levD (a b : List Char) :
    levenshtein_distance a b = levD a b := by
  unfold levenshtein_distance
  by_cases h : a.length > b.length
  · rw [if_pos h, levCore_eq_levD, levD_comm]
  · rw [if_neg h, levCore_eq_levD]

/-! ### The banded kernel `levenshtein_distance_with_max`
(src/lib.rs lines 121-221)

The translation is line by line.  `isize` quantities (`k`, `offset`,
`char_index`) are `Int`; `usize` quantities are `Nat`.  A Rust panic
(`unwrap()` on `None`, reachable when `max_distance = 0` makes the window
vector empty) is the outer `none` of the result.  The `as usize` casts of
`k + offset` and `offset` are modelled through `Int.toNat` on provably
non-negative values, matching the release (non-overflow-checked)
semantics of the source; in-bounds slice indexing is modelled with `getD`
(the defaults are unreachable). -/

/-- Model of `vector.iter().min().copied()`: `none` exactly when the vector
is empty, where the source's `unwrap()` panics. -/
def listMin : List Nat → Option Nat
  | [] => none
  | x :: rest => some (rest.foldl min x)

/-- Inner loop of `levenshtein_distance_with_max` (lines 167-203): `j`
walks the window `0..k`, writing `next_vector[j]`; reads come from the
previous row `vector` and the already rewritten left neighbour in
`next_vector`. -/
def lwmInnerLoop (aChar : Char) (b : List Char) (bLen maxD : Nat) (k : Int)
    (offset : Int) (i : Nat) (vector : List Nat) :
    Nat → Nat → List Nat → List Nat
  | 0, _, next => next
  | fuel + 1, j, next =>
    let charIndex : Int := (j : Int) + offset
    let next' :=
      if charIndex = -1 then next.set j (i + 1)
      else if charIndex < 0 ∨ (bLen : Int) ≤ charIndex then next
      else
        let bChar := b.getD charIndex.toNat ' '
        let cost :=
          if aChar = bChar then vector.getD j 0
          else
            let deletionCost :=
              (if (j : Int) = k - 1 then maxD else vector.getD (j + 1) 0) + 1
            let insertionCost :=
              (if j = 0 then maxD else next.getD (j - 1) 0) + 1
            let subCost := vector.getD j 0 + 1
            min deletionCost (min insertionCost subCost)
        next.set j cost
    lwmInnerLoop aChar b bLen maxD k offset i vector fuel (j + 1) next'

/-- Outer loop of `levenshtein_distance_with_max` (lines 165-210): one
iteration per character of `a`; after `copy_from_slice` both buffers hold
the new row, then the early-termination minimum check runs.  Result:
`none` = panic, `some none` = early `return None`, `some (some _)` =
completed with final vector and offset. -/
def lwmOuterLoop (b : List Char) (bLen maxD : Nat) (k : Int) :
    List Char → Int → Nat → List Nat → List Nat →
      Option (Option (List Nat × Int))
  | [], offset, _, vector, _ => some (some (vector, offset))
  | aChar :: aRest, offset, i, _vector, next =>
    let next' := lwmInnerLoop aChar b bLen maxD k offset i _vector k.toNat 0 next
    match listMin next' with
    | none => none
    | some m =>
      if maxD < m then some none
      else lwmOuterLoop b bLen maxD k aRest (offset + 1) (i + 1) next' next'

/-- Body of `levenshtein_distance_with_max` after the swap of lines
132-136 (so `a` is the shorter string): reject when the length gap
exceeds the bound (line 138), run the banded loops, then read the answer
out of the final window (lines 211-220). -/
def lwmCore (a b : List Char) (maxDistance : Nat) : Option (Option Nat) :=
  let aLen := a.length
  let bLen := b.length
  if maxDistance < bLen - aLen then some none
  else
    let k : Int := (maxDistance : Int) * 2 - 1
    let offset0 : Int := 1 - (maxDistance : Int)
    let vector0 : List Nat :=
      List.replicate (maxDistance - 1) 9 ++ List.range maxDistance
    let next0 : List Nat := List.replicate k.toNat 9
    match lwmOuterLoop b bLen maxDistance k a offset0 0 vector0 next0 with
    | none => none
    | some none => some none
    | some (some (vector, offset)) =>
      if (k + offset).toNat ≤ bLen then
        match vector.getLast? with
        | none => none
        | some vlast =>
          let result := vlast + bLen - (k + offset).toNat
          if maxDistance < result then some none else some (some result)
      else
        let result := vector.getD ((bLen : Int) - offset).toNat 0
        if maxDistance < result then some none else some (some result)

/-- Model of `pub fn levenshtein_distance_with_max` (lines 121-221):
swap so the shorter string comes first, then run the banded computation. -/
def levenshtein_distance_with_max (a0 b0 : List Char) (maxDistance : Nat) :
    Option (Option Nat) :=
  if a0.length > b0.length then lwmCore b0 a0 maxDistance
  else lwmCore a0 b0 maxDistance

/-! ### The sequential aggregator `spellcheck` (src/lib.rs lines 32-49)

`filter_map` keeps the candidates for which the kernel returns a value
(pairing each with its distance); a kernel panic propagates.  The source
sorts with `sort_unstable_by_key(|&(distance, _)| distance)`; that sort is
modelled here by `List.insertionSort` on the key order `keyLE`.  The Rust
sort is unstable, so only facts independent of the order of equal keys
(the multiset of survivors and the sortedness of the keys) are properties
of the source; the tie order of this model is NOT one. -/

/-- Key order used by the sort: compare the distance components. -/
def keyLE (p q : Nat × List Char) : Prop := p.1 ≤ q.1

instance : DecidableRel keyLE := fun p q =>
  inferInstanceAs (Decidable (p.1 ≤ q.1))

instance : IsTotal (Nat × List Char) keyLE :=
  ⟨fun p q => Nat.le_total p.1 q.1⟩

instance : IsTrans (Nat × List Char) keyLE :=
  ⟨fun _ _ _ => Nat.le_trans⟩

/-- Model of the `filter_map` + `collect` of `spellcheck` (lines 37-43):
pairs `(distance, candidate)` for the kept candidates, `none` if the
kernel panics on some candidate. -/
def collectSuggestions (word : List Char) (maxDistance : Nat) :
    List (List Char) → Option (List (Nat × List Char))
  | [] => some []
  | candidate :: rest =>
    match levenshtein_distance_with_max word candidate maxDistance with
    | none => none
    | some none => collectSuggestions word maxDistance rest
    | some (some d) =>
      (collectSuggestions word maxDistance rest).map
        (fun l => (d, candidate) :: l)

/-- Model of `pub fn spellcheck` (lines 32-49): collect the survivors,
sort them by distance, drop the keys. -/
def spellcheck (dictionary : List (List Char)) (word : List Char)
    (maxDistance : Nat) : Option (List (List Char)) :=
  (collectSuggestions word maxDistance dictionary).map
    (fun suggestions => (List.insertionSort keyLE suggestions).map Prod.snd)

/-! ### Facts about the banded kernel and the aggregator -/

/-- Any value the post-swap banded computation returns passed the final
`result > max_distance` check, so it is at most the bound. -/
theorem lwmCore_some_le {a b : List Char} {m v : Nat}
    (h : lwmCore a b m = some (some v)) : v ≤ m := by
  unfold lwmCore at h
  simp only [] at h
  split at h
  · exact absurd h (by simp)
  · split at h
    · exact absurd h (by simp)
    · exact absurd h (by simp)
    · split at h
      · split at h
        · exact absurd h (by simp)
        · split at h
          · exact absurd h (by simp)
          · rename_i hle
            simp only [Option.some.injEq] at h
            omega
      · split at h
        · exact absurd h (by simp)
        · rename_i hle
          simp only [Option.some.injEq] at h
          omega

/-- Any value the banded kernel returns is at most the bound. -/
theorem lwm_some_le {a b : List Char} {m v : Nat}
    (h : levenshtein_distance_with_max a b m = some (some v)) : v ≤ m := by
  unfold levenshtein_distance_with_max at h
  split at h
  · exact lwmCore_some_le h
  · exact lwmCore_some_le h

/-- Length-gap early rejection (line 138): after the swap the length
difference is `b_len - a_len`; when it exceeds the bound the kernel
returns `None` at once. -/
theorem lwm_length_gap {a b : List Char} {m : Nat}
    (h : max a.length b.length - min a.length b.length > m) :
    levenshtein_distance_with_max a b m = some none := by
  unfold levenshtein_distance_with_max
  by_cases hs : a.length > b.length
  · rw [if_pos hs]
    unfold lwmCore
    rw [if_pos (show m < a.length - b.length by omega)]
  · rw [if_neg hs]
    unfold lwmCore
    rw [if_pos (show m < b.length - a.length by omega)]

/-- When the collection phase completes, no candidate made the kernel
panic. -/
theorem collectSuggestions_no_panic {word : List Char} {m : Nat} :
    ∀ {dict : List (List Char)} {l : List (Nat × List Char)},
      collectSuggestions word m dict = some l →
      ∀ c ∈ dict, levenshtein_distance_with_max word c m ≠ none := by
  intro dict
  induction dict with
  | nil => intro l _ c hc; simp at hc
  | cons cand rest ih =>
    intro l h c hc
    simp only [collectSuggestions] at h
    cases hk : levenshtein_distance_with_max word cand m with
    | none => rw [hk] at h; exact absurd h (by simp)
    | some o =>
      rw [hk] at h
      rcases List.mem_cons.mp hc with rfl | hc'
      · simp [hk]
      · cases o with
        | none => exact ih h c hc'
        | some d =>
          cases hrest : collectSuggestions word m rest with
          | none => rw [hrest] at h; exact absurd h (by simp)
          | some lr => exact ih hrest c hc'

/-- Membership in the collected list holds exactly for dictionary entries
on which the kernel returned that distance. -/
theorem collectSuggestions_mem {word : List Char} {m : Nat} :
    ∀ {dict : List (List Char)} {l : List (Nat × List Char)},
      collectSuggestions word m dict = some l →
      ∀ d c, ((d, c) ∈ l ↔ c ∈ dict ∧
        levenshtein_distance_with_max word c m = some (some d)) := by
  intro dict
  induction dict with
  | nil =>
    intro l h d c
    simp only [collectSuggestions, Option.some.injEq] at h
    subst h; simp
  | cons cand rest ih =>
    intro l h d c
    simp only [collectSuggestions] at h
    cases hk : levenshtein_distance_with_max word cand m with
    | none => rw [hk] at h; exact absurd h (by simp)
    | some o =>
      rw [hk] at h
      cases o with
      | none =>
        rw [ih h d c]
        constructor
        · rintro ⟨hc, hkc⟩; exact ⟨List.mem_cons_of_mem _ hc, hkc⟩
        · rintro ⟨hc, hkc⟩
          rcases List.mem_cons.mp hc with rfl | hc'
          · rw [hk] at hkc; cases hkc
          · exact ⟨hc', hkc⟩
      | some dv =>
        cases hrest : collectSuggestions word m rest with
        | none => rw [hrest] at h; exact absurd h (by simp)
        | some lr =>
          rw [hrest] at h
          simp only [Option.map_some', Option.some.injEq] at h
          subst h
          have hr := ih hrest d c
          constructor
          · intro hmem
            rcases List.mem_cons.mp hmem with heq | hmem'
            · have hd : d = dv ∧ c = cand := by simpa [Prod.ext_iff] using heq
              rcases hd with ⟨rfl, rfl⟩
              exact ⟨List.mem_cons_self _ _, hk⟩
            · obtain ⟨hc', hkc⟩ := hr.mp hmem'
              exact ⟨List.mem_cons_of_mem _ hc', hkc⟩
          · rintro ⟨hc, hkc⟩
            rcases List.mem_cons.mp hc with rfl | hc'
            · rw [hk] at hkc
              have hdv : dv = d := by simpa using hkc
              subst hdv
              exact List.mem_cons_self _ _
            · exact List.mem_cons_of_mem _ (hr.mpr ⟨hc', hkc⟩)

/-- Every collected pair records the kernel's result for its candidate. -/
theorem collectSuggestions_pairs {word : List Char} {m : Nat}
    {dict : List (List Char)} {l : List (Nat × List Char)}
    (h : collectSuggestions word m dict = some l) :
    ∀ p ∈ l, levenshtein_distance_with_max word p.2 m = some (some p.1) := by
  intro p hp
  have := (collectSuggestions_mem h p.1 p.2).mp (by simpa using hp)
  exact this.2

/-- Decomposition of a completed `spellcheck` run. -/
theorem spellcheck_eq {dict : List (List Char)} {word : List Char} {m : Nat}
    {out : List (List Char)} (h : spellcheck dict word m = some out) :
    ∃ l, collectSuggestions word m dict = some l ∧
      out = (List.insertionSort keyLE l).map Prod.snd := by
  unfold spellcheck at h
  cases hc : collectSuggestions word m dict with
  | none => rw [hc] at h; cases h
  | some l =>
    rw [hc] at h
    simp only [Option.map_some', Option.some.injEq] at h
    exact ⟨l, rfl, h.symm⟩

/-- A candidate survives `spellcheck` exactly when it is a dictionary entry
for which the kernel returned a value. -/
theorem spellcheck_mem_iff {dict : List (List Char)} {word : List Char}
    {m : Nat} {out : List (List Char)} (h : spellcheck dict word m = some out)
    (c : List Char) :
    c ∈ out ↔ c ∈ dict ∧
      ∃ v, levenshtein_distance_with_max word c m = some (some v) := by
  obtain ⟨l, hc, rfl⟩ := spellcheck_eq h
  simp only [List.mem_map, List.mem_insertionSort]
  constructor
  · rintro ⟨⟨d, c'⟩, hp, rfl⟩
    obtain ⟨hcd, hk⟩ := (collectSuggestions_mem hc d c').mp hp
    exact ⟨hcd, d, hk⟩
  · rintro ⟨hcd, d, hk⟩
    exact ⟨(d, c), (collectSuggestions_mem hc d c).mpr ⟨hcd, hk⟩, rfl⟩

/-! ### Claim theorems -/

/-- C1: the claim that the banded kernel agrees with the full kernel
whenever the true distance is within the bound fails on the code.  At
`a = "a"`, `b = "ab"`, `max_distance = 1` the true distance is `1 ≤ 1`,
yet `levenshtein_distance_with_max` returns `Some 0` instead of
`Some 1` (the final window read-out is taken one column short of the last
column of `b` when `|b| = |a| + max_distance`).  This contradicts the
source's own doc comment and the spec's agreement invariant, so it is a
bug in the code. -/
theorem C1_banded_disagrees_with_full_kernel :
    levenshtein_distance ['a'] ['a', 'b'] = 1 ∧
    levenshtein_distance_with_max ['a'] ['a', 'b'] 1 = some (some 0) :=
  ⟨rfl, rfl⟩

/-- C2: the claim that `max_distance = 0` is a handled edge case accepting
exactly the identical strings fails on the code.  With `max_distance = 0`
the window vector `2*0 - 1` is empty, and for any two strings of equal
character count — including two equal strings, where the claim demands
`Some 0` — the code panics (`unwrap()` on the minimum of the empty
vector, modelled by the outer `none`); only the unequal-length case
returns `None` as claimed. -/
theorem C2_maxDistance_zero_panics_on_equal_strings :
    levenshtein_distance_with_max ['a'] ['a'] 0 = none ∧
    levenshtein_distance_with_max ['a'] ['a', 'b'] 0 = some none :=
  ⟨rfl, rfl⟩

/-- C3: `levenshtein_distance` returns the minimum number of
single-character insertions, deletions and substitutions transforming one
string into the other, counting Unicode scalar values; in particular
`distance("kitten","sitting") = 3` and `distance("à","a") = 1`. -/
theorem C3_minimum_edit_count :
    (∀ a b : List Char,
      IsLeast { n | Edits n a b } (levenshtein_distance a b)) ∧
    levenshtein_distance ['k', 'i', 't', 't', 'e', 'n']
      ['s', 'i', 't', 't', 'i', 'n', 'g'] = 3 ∧
    levenshtein_distance ['à'] ['a'] = 1 := by
  refine ⟨fun a b => ?_, by rfl, by rfl⟩
  rw [levenshtein_distance_eq_levD]
  exact levD_isLeast a b

/-- C5 counterexample: a candidate at distance exactly `max_distance` is
not always included.  For the dictionary `["axy"]`, query `"xy"` and bound
`1` the distance is exactly `1`, but the banded kernel's early-termination
check fires (the window is too narrow) and returns `None`, so `spellcheck`
rejects the candidate. -/
theorem C5_counterexample :
    levenshtein_distance ['x', 'y'] ['a', 'x', 'y'] = 1 ∧
    spellcheck [['a', 'x', 'y']] ['x', 'y'] 1 = some [] :=
  ⟨rfl, rfl⟩

/-- C5 amended: `spellcheck` keeps exactly those candidates for which
`levenshtein_distance_with_max` returns a value — `None` is the only cause
of rejection — and any value the kernel returns is at most
`max_distance`; however, because of the kernel bug, a candidate at true
distance exactly `max_distance` is not guaranteed to be included. -/
theorem C5_kept_iff_kernel_returns_value (dict : List (List Char))
    (word : List Char) (m : Nat) (out : List (List Char))
    (h : spellcheck dict word m = some out) :
    (∀ c, c ∈ out ↔ c ∈ dict ∧
      ∃ v, levenshtein_distance_with_max word c m = some (some v)) ∧
    (∀ a b v, levenshtein_distance_with_max a b m = some (some v) → v ≤ m) :=
  ⟨spellcheck_mem_iff h, fun _ _ _ hv => lwm_some_le hv⟩

theorem C5_witness :
    spellcheck [['a', 'b']] ['a', 'b'] 1 = some [['a', 'b']] ∧
    ((∀ c, c ∈ [['a', 'b']] ↔ c ∈ [['a', 'b']] ∧
        ∃ v, levenshtein_distance_with_max ['a', 'b'] c 1 = some (some v)) ∧
     (∀ a b v,
        levenshtein_distance_with_max a b 1 = some (some v) → v ≤ 1)) :=
  ⟨rfl, C5_kept_iff_kernel_returns_value [['a', 'b']] ['a', 'b'] 1
    [['a', 'b']] rfl⟩

/-- C6 counterexample: the exclusive-bound policy does not hold. For the
dictionary `["b"]`, query `"a"` and bound `1` the candidate's distance is
exactly `1 = max_distance`, the kernel returns `Some 1`, and `spellcheck`
keeps the candidate instead of discarding it. -/
theorem C6_counterexample :
    levenshtein_distance ['a'] ['b'] = 1 ∧
    spellcheck [['b']] ['a'] 1 = some [['b']] :=
  ⟨rfl, rfl⟩

/-- C6 amended: `spellcheck` discards a dictionary candidate exactly when
the bounded kernel returns `None` for it; a candidate whose returned
distance equals `max_distance` is kept (the bound is inclusive in this
code path, not exclusive). -/
theorem C6_discarded_iff_kernel_none (dict : List (List Char))
    (word : List Char) (m : Nat) (out : List (List Char))
    (h : spellcheck dict word m = some out) :
    ∀ c ∈ dict,
      (c ∉ out ↔ levenshtein_distance_with_max word c m = some none) := by
  intro c hcd
  have hmem := spellcheck_mem_iff h c
  obtain ⟨l, hcoll, -⟩ := spellcheck_eq h
  have hnp := collectSuggestions_no_panic hcoll c hcd
  constructor
  · intro hno
    cases hk : levenshtein_distance_with_max word c m with
    | none => exact absurd hk hnp
    | some o =>
      cases o with
      | none => rfl
      | some d => exact absurd (hmem.mpr ⟨hcd, d, hk⟩) hno
  · intro hk hin
    obtain ⟨-, d, hkd⟩ := hmem.mp hin
    rw [hk] at hkd
    cases hkd

theorem C6_witness :
    spellcheck [['q', 'x']] ['q'] 1 = some [['q', 'x']] ∧
    (∀ c ∈ [['q', 'x']], (c ∉ [['q', 'x']] ↔
      levenshtein_distance_with_max ['q'] c 1 = some none)) :=
  ⟨rfl, C6_discarded_iff_kernel_none [['q', 'x']] ['q'] 1 [['q', 'x']] rfl⟩

/-- C7: the distances the kernel computed for the surviving candidates, in
output order, form a non-decreasing sequence. -/
theorem C7_distances_nondecreasing (dict : List (List Char))
    (word : List Char) (m : Nat) (out : List (List Char))
    (h : spellcheck dict word m = some out) :
    ∃ ds : List Nat, List.Chain' (· ≤ ·) ds ∧
      out.map (fun c => levenshtein_distance_with_max word c m)
        = ds.map (fun d => some (some d)) := by
  obtain ⟨l, hc, rfl⟩ := spellcheck_eq h
  refine ⟨(List.insertionSort keyLE l).map Prod.fst, ?_, ?_⟩
  · rw [List.chain'_iff_pairwise]
    exact List.pairwise_map.mpr (List.sorted_insertionSort keyLE l)
  · rw [List.map_map, List.map_map]
    refine List.map_congr_left fun p hp => ?_
    exact collectSuggestions_pairs hc p ((List.mem_insertionSort keyLE).mp hp)

theorem C7_witness :
    spellcheck [['t', 'h', 'i', 'n'], ['t', 'h', 'i', 'n', 'g']]
      ['t', 'h', 'i', 'n', 'g', 'a'] 3
      = some [['t', 'h', 'i', 'n', 'g'], ['t', 'h', 'i', 'n']] ∧
    (∃ ds : List Nat, List.Chain' (· ≤ ·) ds ∧
      [['t', 'h', 'i', 'n', 'g'], ['t', 'h', 'i', 'n']].map
        (fun c =>
          levenshtein_distance_with_max ['t', 'h', 'i', 'n', 'g', 'a'] c 3)
        = ds.map (fun d => some (some d))) :=
  ⟨rfl, C7_distances_nondecreasing
    [['t', 'h', 'i', 'n'], ['t', 'h', 'i', 'n', 'g']]
    ['t', 'h', 'i', 'n', 'g', 'a'] 3
    [['t', 'h', 'i', 'n', 'g'], ['t', 'h', 'i', 'n']] rfl⟩

/-- C8: when the character-count difference of the two strings exceeds
`max_distance`, the banded kernel returns `None` through the early
length-gap rejection. -/
theorem C8_length_gap_rejected (a b : List Char) (m : Nat)
    (h : max a.length b.length - min a.length b.length > m) :
    levenshtein_distance_with_max a b m = some none :=
  lwm_length_gap h

theorem C8_witness :
    (max (List.length ['a'])
        (List.length ['a', 'b', 'c', 'd', 'e', 'f', 'g']) -
      min (List.length ['a'])
        (List.length ['a', 'b', 'c', 'd', 'e', 'f', 'g']) > 2) ∧
    levenshtein_distance_with_max ['a'] ['a', 'b', 'c', 'd', 'e', 'f', 'g'] 2
      = some none :=
  ⟨by decide, C8_length_gap_rejected ['a'] ['a', 'b', 'c', 'd', 'e', 'f', 'g']
    2 (by decide)⟩

/-- C9: the full kernel is a total function (it is a Lean function into
`Nat`, hence defined and non-negative on every input, empty strings
included); two empty strings give `0` and one empty string gives the
other's character count. -/
theorem C9_total_empty_cases :
    levenshtein_distance [] [] = 0 ∧
    (∀ b : List Char, levenshtein_distance [] b = b.length) ∧
    (∀ a : List Char, levenshtein_distance a [] = a.length) := by
  refine ⟨?_, fun b => ?_, fun a => ?_⟩ <;>
    simp [levenshtein_distance_eq_levD]

/-- C10: the full kernel is symmetric in its two arguments. -/
theorem C10_symmetric (a b : List Char) :
    levenshtein_distance a b = levenshtein_distance b a := by
  rw [levenshtein_distance_eq_levD, levenshtein_distance_eq_levD, levD_comm]

end Spelling
